import Mathlib

/-!
# Verification of `lib/neuroimaging/statistics/regression.py`

Shallow embedding of the regression module: ordinary, autoregressive and
weighted least-squares models, regression results with T/F contrasts, and
the contrast-construction / estimability utilities.

Conventions of the embedding:

* numpy arrays become functions `Fin n → K` and `Matrix (Fin n) (Fin p) K`
  over an exact linearly ordered field (`ℚ` where the computation is purely
  rational, `ℝ` where the source takes square roots);
* the external numeric backend (`numpy.linalg`) is represented by its
  mathematical specification: `L.pinv` becomes a function parameter `pinv`
  together with the Moore-Penrose predicate `IsMPInv`, and `L.inv` becomes
  `linalg_inv`, which fails on singular input exactly as `numpy.linalg.inv`
  raises `LinAlgError`;
* the `enthought.traits` observer hooks (`_design_changed`,
  `_wdesign_changed`, `_rho_changed`, `_weights_changed`) fire synchronously
  when a trait is assigned, so each "assign trait x" operation is embedded
  as a state-transition function that performs the assignment followed by
  the recomputation the hooks perform;
* Python attribute lookups that can fail (`hasattr` guards, reads of
  undefined names) are embedded with `Option` fields and `Except String`
  results, the error string recording the Python exception.
-/

open Matrix

namespace Regression

/-- Modelled from the spec: `utils.recipr` (the `utils` module of this
repository is not under `src/`) — "reciprocal-with-zero-guard": must return
0 wherever the denominator is exactly 0, and `1/x` otherwise. -/
def utils.recipr (x : ℚ) : ℚ := if x = 0 then 0 else 1 / x

/-- Modelled from the spec: `utils.rank` (the `utils` module of this
repository is not under `src/`) — "determines numerical rank of a matrix";
in exact arithmetic this is the rank of the matrix. -/
noncomputable def utils.rank {m k : Type} [Fintype m] [Fintype k]
    (A : Matrix m k ℚ) : ℕ := A.rank

/-- The four Penrose conditions: `G` is the Moore-Penrose pseudo-inverse of
`A`.  This is the mathematical contract of the external `numpy.linalg.pinv`
backend call. -/
def IsMPInv {K : Type} [Field K] {n p : ℕ}
    (A : Matrix (Fin n) (Fin p) K) (G : Matrix (Fin p) (Fin n) K) : Prop :=
  A * G * A = A ∧ G * A * G = G ∧ (A * G)ᵀ = A * G ∧ (G * A)ᵀ = G * A

/-- State of an `OLSModel` (class `OLSModel`, regression.py lines 195-248):
the design matrix together with the quantities `setup` derives from the
whitened design. -/
structure OLSModel (K : Type) (n p : ℕ) where
  design : Matrix (Fin n) (Fin p) K
  wdesign : Matrix (Fin n) (Fin p) K
  calc_beta : Matrix (Fin p) (Fin n) K
  normalized_cov_beta : Matrix (Fin p) (Fin p) K
  _df_resid : ℤ

variable {K : Type} [LinearOrderedField K] [FloorRing K] {n p : ℕ}

/-- `OLSModel.setup`: `calc_beta = L.pinv(wdesign)`,
`normalized_cov_beta = dot(calc_beta, transpose(calc_beta))`,
`_df_resid = int(around(n - trace(dot(calc_beta, wdesign))))`.
The external `L.pinv` is the function parameter `pinv`. -/
def OLSModel.setup (pinv : Matrix (Fin n) (Fin p) K → Matrix (Fin p) (Fin n) K)
    (m : OLSModel K n p) : OLSModel K n p :=
  let cb := pinv m.wdesign
  { m with
    calc_beta := cb
    normalized_cov_beta := cb * cbᵀ
    _df_resid := round ((n : K) - Matrix.trace (cb * m.wdesign)) }

/-- `OLSModel.df_resid`: returns `self._df_resid`. -/
def OLSModel.df_resid (m : OLSModel K n p) : ℤ := m._df_resid

/-- `OLSModel.whiten` is the identity. -/
def OLSModel.whiten (_m : OLSModel K n p) (Y : Fin n → K) : Fin n → K := Y

/-- Assigning `self.design` fires the trait hook `_design_changed`
(`wdesign = design`), whose assignment to `wdesign` fires
`_wdesign_changed` (`setup()`). -/
def OLSModel.set_design (pinv : Matrix (Fin n) (Fin p) K → Matrix (Fin p) (Fin n) K)
    (m : OLSModel K n p) (d : Matrix (Fin n) (Fin p) K) : OLSModel K n p :=
  OLSModel.setup pinv { m with design := d, wdesign := d }

/-- The container built by `OLSModel.fit` (class `RegressionModelResults`).
The source also stores `lfit.df_resid = self.df_resid`, a *bound method* of
the model object; that field is embedded by
`RegressionModelResults.df_resid` below, which reads the model's state at
call time rather than a value captured at fit time. -/
structure RegressionModelResults (K : Type) (n p : ℕ) where
  beta : Fin p → K
  normalized_cov_beta : Matrix (Fin p) (Fin p) K
  resid : Fin n → K
  scale : K
  Z : Fin n → K

/-- `lfit.df_resid = self.df_resid` stores the bound method of the model
object, so a later call `lfit.df_resid()` returns `self._df_resid` of the
model *in its state at call time*; the embedding therefore passes the
model's current state explicitly. -/
def RegressionModelResults.df_resid (_lfit : RegressionModelResults K n p)
    (model_now : OLSModel K n p) : ℤ :=
  OLSModel.df_resid model_now

/-- `OLSModel.fit(Y)` (lines 230-248): `Z = whiten(Y)`,
`beta = dot(calc_beta, Z)`, `resid = Z - dot(wdesign, beta)`,
`scale = add.reduce(resid**2) / df_resid()` (the `df_resid()` call reads
the model's `_df_resid` during the fit). -/
def OLSModel.fit (m : OLSModel K n p) (Y : Fin n → K) :
    RegressionModelResults K n p :=
  let Z := m.whiten Y
  let beta := m.calc_beta.mulVec Z
  let resid := Z - m.wdesign.mulVec beta
  { beta := beta
    normalized_cov_beta := m.normalized_cov_beta
    resid := resid
    scale := (∑ i, resid i ^ 2) / (m.df_resid : K)
    Z := Z }

/-- `ARModel.whiten(X)` (lines 269-271):
`factor = 1/sqrt(1 - rho**2)`;
`concatenate([[X[0]], (X[1:] - rho*X[0:-1]) * factor])`.
The first axis of `X` must be non-empty (`X[0]`), hence length `m + 1`. -/
noncomputable def ARModel.whiten {m q : ℕ} (rho : ℝ)
    (X : Matrix (Fin (m + 1)) (Fin q) ℝ) : Matrix (Fin (m + 1)) (Fin q) ℝ :=
  Matrix.of (Fin.cons (X 0)
    (fun i : Fin m => (1 / Real.sqrt (1 - rho ^ 2)) • (X i.succ - rho • X i.castSucc)))

/-- State of an `ARModel` (lines 250-271): an `OLSModel` plus the AR(1)
correlation trait `rho`.  The row count is `n + 1` because the AR whitening
reads `X[0]`. -/
structure ARModel (n p : ℕ) extends OLSModel ℝ (n + 1) p where
  rho : ℝ

/-- `ARModel._design_changed` (lines 263-264): `wdesign = self.whiten(design)`,
whose assignment fires `_wdesign_changed`, i.e. `setup()`. -/
noncomputable def ARModel._design_changed {n p : ℕ}
    (pinv : Matrix (Fin (n + 1)) (Fin p) ℝ → Matrix (Fin p) (Fin (n + 1)) ℝ)
    (m : ARModel n p) : ARModel n p :=
  { m with toOLSModel :=
      OLSModel.setup pinv { m.toOLSModel with wdesign := ARModel.whiten m.rho m.design } }

/-- Assigning `self.design` on an `ARModel` fires the AR override of
`_design_changed`. -/
noncomputable def ARModel.set_design {n p : ℕ}
    (pinv : Matrix (Fin (n + 1)) (Fin p) ℝ → Matrix (Fin p) (Fin (n + 1)) ℝ)
    (m : ARModel n p) (d : Matrix (Fin (n + 1)) (Fin p) ℝ) : ARModel n p :=
  ARModel._design_changed pinv { m with design := d }

/-- Assigning `self.rho` fires `_rho_changed` (lines 266-267), which calls
`_design_changed`. -/
noncomputable def ARModel.set_rho {n p : ℕ}
    (pinv : Matrix (Fin (n + 1)) (Fin p) ℝ → Matrix (Fin p) (Fin (n + 1)) ℝ)
    (m : ARModel n p) (r : ℝ) : ARModel n p :=
  ARModel._design_changed pinv { m with rho := r }

/-- `WLSModel.whiten(X)`, branch `X.ndim == 1` (lines 288-289):
`X / sqrt(self.weights)` elementwise. -/
noncomputable def WLSModel.whiten1d {m : ℕ} (weights : Fin m → ℝ)
    (X : Fin m → ℝ) : Fin m → ℝ :=
  fun i => X i / Real.sqrt (weights i)

/-- `WLSModel.whiten(X)`, branch `X.ndim == 2` (lines 290-295):
`c = sqrt(self.weights)`; each column `v[:,i] = X[:,i] / c`. -/
noncomputable def WLSModel.whiten2d {m q : ℕ} (weights : Fin m → ℝ)
    (X : Matrix (Fin m) (Fin q) ℝ) : Matrix (Fin m) (Fin q) ℝ :=
  Matrix.of fun i j => X i j / Real.sqrt (weights i)

/-- State of a `WLSModel` (lines 274-295): an `ARModel` plus the
inverse-variance `weights` trait. -/
structure WLSModel (n p : ℕ) extends ARModel n p where
  weights : Fin (n + 1) → ℝ

/-- `_design_changed` as executed on a `WLSModel`: the method body is
inherited from `ARModel` (`wdesign = self.whiten(self.design)`), but dynamic
dispatch of `self.whiten` selects `WLSModel.whiten` — only the subclass's
own transform runs, with no AR(1) factor and no use of `rho`. -/
noncomputable def WLSModel._design_changed {n p : ℕ}
    (pinv : Matrix (Fin (n + 1)) (Fin p) ℝ → Matrix (Fin p) (Fin (n + 1)) ℝ)
    (m : WLSModel n p) : WLSModel n p :=
  { m with toOLSModel :=
      OLSModel.setup pinv { m.toOLSModel with wdesign := WLSModel.whiten2d m.weights m.design } }

/-- Assigning `self.design` on a `WLSModel`. -/
noncomputable def WLSModel.set_design {n p : ℕ}
    (pinv : Matrix (Fin (n + 1)) (Fin p) ℝ → Matrix (Fin p) (Fin (n + 1)) ℝ)
    (m : WLSModel n p) (d : Matrix (Fin (n + 1)) (Fin p) ℝ) : WLSModel n p :=
  WLSModel._design_changed pinv { m with design := d }

/-- Assigning `self.rho` on a `WLSModel`: `_rho_changed` calls
`_design_changed`, which re-whitens with `WLSModel.whiten` (dispatch). -/
noncomputable def WLSModel.set_rho {n p : ℕ}
    (pinv : Matrix (Fin (n + 1)) (Fin p) ℝ → Matrix (Fin p) (Fin (n + 1)) ℝ)
    (m : WLSModel n p) (r : ℝ) : WLSModel n p :=
  WLSModel._design_changed pinv { m with rho := r }

/-- Assigning `self.weights` fires `_weights_changed` (lines 284-285), which
calls `_design_changed`. -/
noncomputable def WLSModel.set_weights {n p : ℕ}
    (pinv : Matrix (Fin (n + 1)) (Fin p) ℝ → Matrix (Fin p) (Fin (n + 1)) ℝ)
    (m : WLSModel n p) (w : Fin (n + 1) → ℝ) : WLSModel n p :=
  WLSModel._design_changed pinv { m with weights := w }

/-- The dynamic attribute dictionary of a freshly constructed
`RegressionModelResults` object, for the lazy / prerequisite-checking
protocol of `sd`, `t` and `norm_resid`: each attribute is present (`some`)
only once some code has assigned it.  `__init__` assigns nothing. -/
structure ResultsAttrs (n p : ℕ) where
  beta : Option (Fin p → ℝ)
  resid : Option (Fin n → ℝ)
  scale : Option ℝ
  _sd : Option ℝ

/-- `RegressionModelResults.__init__` (lines 82-83): no attribute is set. -/
def ResultsAttrs.init (n p : ℕ) : ResultsAttrs n p :=
  ⟨none, none, none, none⟩

/-- `RegressionModelResults.sd` (lines 97-100): raises
`ValueError` when `resid` is absent, else caches `_sd = sqrt(self.scale)`
(reading an absent `scale` would raise `AttributeError`). -/
noncomputable def ResultsAttrs.sd {n p : ℕ} (s : ResultsAttrs n p) :
    Except String (ResultsAttrs n p) :=
  if s.resid.isNone then .error "need residuals to estimate standard deviation"
  else
    match s.scale with
    | none => .error "AttributeError: scale"
    | some sc => .ok { s with _sd := some (Real.sqrt sc) }

/-- `RegressionModelResults.t` (lines 85-95): computes `sd` lazily when
`_sd` is absent; after that the body reads the name `_beta`, which is
defined nowhere at module level (line 89), so any execution that gets past
the `sd` step raises `NameError` — `t` can never return a value. -/
noncomputable def ResultsAttrs.t {n p : ℕ} (s : ResultsAttrs n p) :
    Except String (Fin p → ℝ) :=
  match (if s._sd.isNone then s.sd else .ok s) with
  | .error e => .error e
  | .ok _ => .error "NameError: name _beta is not defined"

/-- `numpy.std(Y)**2` in exact arithmetic: the population variance. -/
def np_var {n : ℕ} (Y : Fin n → ℚ) : ℚ :=
  (∑ i, (Y i - (∑ j, Y j) / (n : ℚ)) ^ 2) / (n : ℚ)

/-- `RegressionModelResults.Rsq` (lines 115-121): returns
`scale / std(Y)**2` where `Y` is read as a *module-level global name*.  The
parameter `moduleY` is the module's global binding for `Y`; the regression
module never assigns one, so the source call runs with `moduleY = none` and
raises `NameError`. -/
def RegressionModelResults.Rsq {n p : ℕ} (r : RegressionModelResults ℚ n p)
    (moduleY : Option (Fin n → ℚ)) : Except String ℚ :=
  match moduleY with
  | none => .error "NameError: name Y is not defined"
  | some Y => .ok (r.scale / np_var Y)

/-- `RegressionModelResults.cov_beta` (lines 123-140), `matrix` branch with
explicit `other` and `scale`:
`tmp = dot(matrix, dot(normalized_cov_beta, transpose(other))); tmp * scale`.
`Tcontrast`/`Fcontrast` call it with `other = matrix` (the `other is None`
default) and `scale` either `self.scale` (`None` default) or `1.0`. -/
def RegressionModelResults.cov_beta {n p q q' : ℕ}
    (r : RegressionModelResults ℚ n p)
    (matrix : Matrix (Fin q) (Fin p) ℚ) (other : Matrix (Fin q') (Fin p) ℚ)
    (scale : ℚ) : Matrix (Fin q) (Fin q') ℚ :=
  scale • (matrix * (r.normalized_cov_beta * otherᵀ))

/-- `numpy.linalg.inv`: raises `LinAlgError` on a singular matrix (`none`),
otherwise returns the inverse. -/
noncomputable def linalg_inv {q : ℕ} (A : Matrix (Fin q) (Fin q) ℚ) :
    Option (Matrix (Fin q) (Fin q) ℚ) :=
  if A.det = 0 then none else some A⁻¹

/-- `RegressionModelResults.Fcontrast` (lines 159-185), default arguments:
`cbeta = dot(matrix, beta)`; `q = matrix.shape[0]`;
`invcov = inv(cov_beta(matrix=matrix, scale=1.0))`;
`F = add.reduce(dot(invcov, cbeta) * cbeta, 0) * recipr(q * scale)`. -/
noncomputable def RegressionModelResults.Fcontrast {n p q : ℕ}
    (r : RegressionModelResults ℚ n p) (matrix : Matrix (Fin q) (Fin p) ℚ) :
    Option ℚ :=
  let cbeta := matrix.mulVec r.beta
  (linalg_inv (r.cov_beta matrix matrix 1)).map fun invcov =>
    (∑ i, invcov.mulVec cbeta i * cbeta i) * utils.recipr ((q : ℚ) * r.scale)

/-- Second phase of `contrastfromcols` (lines 330-334): given the candidate
contrast `C` (as a pair of its row count and the matrix), compute
`Tp = dot(D, transpose(C))`; if `utils.rank(Tp) != Tp.shape[1]` replace `Tp`
by `utils.fullrank(Tp)` and recompute `C = transpose(dot(pinv, Tp))`.
`rank` and `fullrank` are the external `utils` collaborators; `fullrank`
returns a column subset of its input, of a width that depends on the input,
hence the sigma type. -/
def cfc_step {n p : ℕ}
    (rank : {k : ℕ} → Matrix (Fin n) (Fin k) ℚ → ℕ)
    (fullrank : {k : ℕ} → Matrix (Fin n) (Fin k) ℚ → (r : ℕ) × Matrix (Fin n) (Fin r) ℚ)
    (D : Matrix (Fin n) (Fin p) ℚ) (pinvD : Matrix (Fin p) (Fin n) ℚ)
    (C : (q : ℕ) × Matrix (Fin q) (Fin p) ℚ) : (q : ℕ) × Matrix (Fin q) (Fin p) ℚ :=
  if rank (D * C.2ᵀ) ≠ C.1 then
    ⟨(fullrank (D * C.2ᵀ)).1, (pinvD * (fullrank (D * C.2ᵀ)).2)ᵀ⟩
  else C

/-- `contrastfromcols(T, D, pinv)` (lines 297-336).  `T` is `a × b`, `D` is
`n × p`; raises `ValueError` when `T.shape[0] != n and T.shape[1] != p`;
otherwise `C = transpose(dot(pinv, T))` when `T.shape[0] == n`, else
`C = T`; then the `cfc_step` full-rank correction.  The final `N.squeeze`
only drops singleton axes and is omitted (it does not change entries).
`pinvD` is the `pinv` argument (`L.pinv(D)` when the caller passes none). -/
def contrastfromcols {a b n p : ℕ}
    (rank : {k : ℕ} → Matrix (Fin n) (Fin k) ℚ → ℕ)
    (fullrank : {k : ℕ} → Matrix (Fin n) (Fin k) ℚ → (r : ℕ) × Matrix (Fin n) (Fin r) ℚ)
    (T : Matrix (Fin a) (Fin b) ℚ) (D : Matrix (Fin n) (Fin p) ℚ)
    (pinvD : Matrix (Fin p) (Fin n) ℚ) :
    Except String ((q : ℕ) × Matrix (Fin q) (Fin p) ℚ) :=
  if hshape : a ≠ n ∧ b ≠ p then .error "shape of T and D mismatched"
  else if ha : a = n then
    .ok (cfc_step rank fullrank D pinvD
      ⟨b, (pinvD * Matrix.reindex (finCongr ha) (Equiv.refl (Fin b)) T)ᵀ⟩)
  else if hb : b = p then
    .ok (cfc_step rank fullrank D pinvD
      ⟨a, Matrix.reindex (Equiv.refl (Fin a)) (finCongr hb) T⟩)
  else absurd ⟨ha, hb⟩ hshape

/-- `isestimable(C, D)` (lines 338-348): `new = concatenate([C, D])` along
the row axis; `False` when `utils.rank(new) != utils.rank(D)`, else `True`. -/
noncomputable def isestimable {q n p : ℕ}
    (C : Matrix (Fin q) (Fin p) ℚ) (D : Matrix (Fin n) (Fin p) ℚ) : Bool :=
  if utils.rank (Matrix.fromRows C D) ≠ utils.rank D then false else true

/-- Concrete pseudo-inverse routine on `1 × 1` matrices, used to instantiate
the abstract `pinv` backend parameter in witnesses. -/
noncomputable def pinvOne (A : Matrix (Fin 1) (Fin 1) ℝ) : Matrix (Fin 1) (Fin 1) ℝ :=
  Matrix.of fun _ _ => if A 0 0 = 0 then 0 else (A 0 0)⁻¹

/-- The group-indicator scenario design `D = [[1,0],[1,0],[0,1],[0,1]]`. -/
def scenarioD : Matrix (Fin 4) (Fin 2) ℚ :=
  Matrix.of ![![1, 0], ![1, 0], ![0, 1], ![0, 1]]

/-- The Moore-Penrose pseudo-inverse of `scenarioD`,
`[[1/2,1/2,0,0],[0,0,1/2,1/2]]`, supplied as the backend's answer. -/
def scenarioP : Matrix (Fin 2) (Fin 4) ℚ :=
  Matrix.of ![![1/2, 1/2, 0, 0], ![0, 0, 1/2, 1/2]]

/-- The scenario response `Y = [1,3,2,6]`. -/
def scenarioY : Fin 4 → ℚ := ![1, 3, 2, 6]

/-- An `OLSModel ℚ n p` with all-zero state, used as the pre-assignment
model object in concrete instantiations. -/
def zeroModel (n p : ℕ) : OLSModel ℚ n p :=
  ⟨0, 0, 0, 0, 0⟩

/-- The invariant claimed for a model's stored quantities after every
change to the whitened design: `calc_beta` is the Moore-Penrose
pseudo-inverse of the whitened design, the normalized coefficient
covariance equals `calc_beta · calc_betaᵀ`, and the residual degrees of
freedom equal `n − round(trace(calc_beta · wdesign))`. -/
def ModelInvariant {K : Type} [LinearOrderedField K] [FloorRing K] {n p : ℕ}
    (m : OLSModel K n p) : Prop :=
  IsMPInv m.wdesign m.calc_beta
  ∧ m.normalized_cov_beta = m.calc_beta * m.calc_betaᵀ
  ∧ m._df_resid = (n : ℤ) - round (Matrix.trace (m.calc_beta * m.wdesign))

/-- Concrete rational pseudo-inverse routine on `1 × 1` matrices. -/
def pinvQOne (A : Matrix (Fin 1) (Fin 1) ℚ) : Matrix (Fin 1) (Fin 1) ℚ :=
  Matrix.of fun _ _ => if A 0 0 = 0 then 0 else (A 0 0)⁻¹

/-- An `ARModel` with all-zero state. -/
noncomputable def zeroAR : ARModel 0 1 :=
  { design := 0, wdesign := 0, calc_beta := 0, normalized_cov_beta := 0,
    _df_resid := 0, rho := 0 }

/-- A `WLSModel` with all-zero state. -/
noncomputable def zeroWLS : WLSModel 0 1 :=
  { design := 0, wdesign := 0, calc_beta := 0, normalized_cov_beta := 0,
    _df_resid := 0, rho := 0, weights := 0 }

/-- A first design for the aliasing experiment: `[[1],[1]]`. -/
def exD1 : Matrix (Fin 2) (Fin 1) ℚ := Matrix.of ![![1], ![1]]

/-- A second design for the aliasing experiment: `[[1],[0]]`. -/
def exD2 : Matrix (Fin 2) (Fin 1) ℚ := Matrix.of ![![1], ![0]]

/-- A concrete pseudo-inverse routine answering correctly on `exD1` and
`exD2` (their Moore-Penrose inverses are `[[1/2,1/2]]` and `[[1,0]]`). -/
def exPinv : Matrix (Fin 2) (Fin 1) ℚ → Matrix (Fin 1) (Fin 2) ℚ :=
  fun A => if A = exD1 then Matrix.of ![![1/2, 1/2]] else Matrix.of ![![1, 0]]

/-- A concrete fit-result record used to instantiate contrast statements. -/
def exResults : RegressionModelResults ℚ 2 1 :=
  ⟨![1], Matrix.of ![![1/2]], ![0, 0], 1, ![1, 3]⟩

/-- A concrete `1 × 1` contrast matrix. -/
def exM : Matrix (Fin 1) (Fin 1) ℚ := 1

/-- A concrete behaviour for the external `utils.rank` parameter of
`contrastfromcols`: the constant 0. -/
def zeroRank {n : ℕ} : {k : ℕ} → Matrix (Fin n) (Fin k) ℚ → ℕ :=
  fun _ => 0

/-- A concrete behaviour for the external `utils.fullrank` parameter of
`contrastfromcols`: the empty (zero-column) column subset, which is a
column subset of any input. -/
def trivialFullrank {n : ℕ} :
    {k : ℕ} → Matrix (Fin n) (Fin k) ℚ → (r : ℕ) × Matrix (Fin n) (Fin r) ℚ :=
  fun _ => ⟨0, Matrix.of fun _ j => Fin.elim0 j⟩

/-- Claim C1: For every OLS model with design matrix set (here: any model on
which `design` has been assigned, with `pinv` the library's pseudo-inverse
routine) and every response `Y`, `fit(Y)` returns a result whose
coefficients equal `pinv(whitened design) · whiten(Y)`, whose residuals
equal `whiten(Y) − (whitened design) · coefficients`, and whose scale
equals the sum of squared residuals divided by the residual degrees of
freedom; and on the scenario design `D = [[1,0],[1,0],[0,1],[0,1]]` with
`Y = [1,3,2,6]` the fit yields coefficients `[2, 4]`, residuals
`[-1,1,-2,2]` and scale `5`. -/
theorem fit_computes_pinv_solution
    {K : Type} [LinearOrderedField K] [FloorRing K] {n p : ℕ}
    (pinv : Matrix (Fin n) (Fin p) K → Matrix (Fin p) (Fin n) K)
    (m0 : OLSModel K n p) (d : Matrix (Fin n) (Fin p) K) (Y : Fin n → K) :
    (((m0.set_design pinv d).fit Y).beta
        = (pinv (m0.set_design pinv d).wdesign).mulVec
            ((m0.set_design pinv d).whiten Y))
    ∧ (((m0.set_design pinv d).fit Y).resid
        = (m0.set_design pinv d).whiten Y
            - (m0.set_design pinv d).wdesign.mulVec (((m0.set_design pinv d).fit Y).beta))
    ∧ (((m0.set_design pinv d).fit Y).scale
        = (∑ i, ((m0.set_design pinv d).fit Y).resid i ^ 2)
            / (((m0.set_design pinv d).df_resid : K)))
    ∧ ((((zeroModel 4 2).set_design (fun _ => scenarioP) scenarioD).fit scenarioY).beta
        = ![2, 4])
    ∧ ((((zeroModel 4 2).set_design (fun _ => scenarioP) scenarioD).fit scenarioY).resid
        = ![-1, 1, -2, 2])
    ∧ ((((zeroModel 4 2).set_design (fun _ => scenarioP) scenarioD).fit scenarioY).scale
        = 5) := by
  refine ⟨rfl, rfl, rfl, funext fun i => ?_, funext fun i => ?_, ?_⟩ <;>
  · simp only [OLSModel.fit, OLSModel.set_design, OLSModel.setup, OLSModel.whiten,
      OLSModel.df_resid, zeroModel, scenarioD, scenarioP, scenarioY,
      Matrix.mulVec, Matrix.trace, Matrix.diag, Matrix.mul_apply, dotProduct,
      Fin.sum_univ_four, Fin.sum_univ_two, Matrix.of_apply, Pi.sub_apply]
    first
    | (fin_cases i <;>
        norm_num [Matrix.cons_val_zero, Matrix.cons_val_one, Matrix.head_cons,
          Matrix.vecHead, Matrix.vecTail, Function.comp])
    | norm_num [Matrix.cons_val_zero, Matrix.cons_val_one, Matrix.head_cons,
        Matrix.vecHead, Matrix.vecTail, Function.comp, round_eq]

/-- Claim C3: For every input array `X` and correlation parameter `ρ` of an
AR(1) model, `whiten(X)` has first row equal to `X[0]` and, for every
`i ≥ 1`, row `i` equal to `(X[i] − ρ·X[i−1]) / sqrt(1 − ρ²)`; in
particular, with `ρ = 0` the AR(1) whitening transform is the identity. -/
theorem ARModel.whiten_rows {m q : ℕ} (rho : ℝ)
    (X : Matrix (Fin (m + 1)) (Fin q) ℝ) :
    ARModel.whiten rho X 0 = X 0
    ∧ (∀ (i : Fin m) (j : Fin q),
        ARModel.whiten rho X i.succ j
          = (X i.succ j - rho * X i.castSucc j) / Real.sqrt (1 - rho ^ 2))
    ∧ ARModel.whiten 0 X = X := by
  refine ⟨rfl, fun i j => ?_, ?_⟩
  · simp only [ARModel.whiten, Matrix.of_apply, Fin.cons_succ, Pi.smul_apply,
      Pi.sub_apply, smul_eq_mul]
    rw [one_div, inv_mul_eq_div]
  · funext i j
    refine Fin.cases ?_ (fun i => ?_) i
    · rfl
    · simp [ARModel.whiten]

/-- Claim C4: For every input `X` of a WLS model with weights vector `w`,
WLS `whiten(X)` divides `X` elementwise by `sqrt(w)` when `X` is 1-D and
divides each column of `X` by `sqrt(w)` independently when `X` is 2-D,
performing only this weighting transform and no AR(1) correction: the
`_design_changed` hook of a `WLSModel` stores exactly
`whiten2d weights design` as the whitened design — independent of `rho` —
after a design, rho or weights assignment.  With all weights equal to `1`
the WLS whitening transform is the identity. -/
theorem WLSModel.whiten_weights_only {m q n p : ℕ} (w : Fin m → ℝ)
    (X : Matrix (Fin m) (Fin q) ℝ) (x : Fin m → ℝ)
    (pinv : Matrix (Fin (n + 1)) (Fin p) ℝ → Matrix (Fin p) (Fin (n + 1)) ℝ)
    (mw : WLSModel n p) (d : Matrix (Fin (n + 1)) (Fin p) ℝ) (r : ℝ)
    (w' : Fin (n + 1) → ℝ) :
    (∀ i j, WLSModel.whiten2d w X i j = X i j / Real.sqrt (w i))
    ∧ (∀ i, WLSModel.whiten1d w x i = x i / Real.sqrt (w i))
    ∧ WLSModel.whiten2d (fun _ => 1) X = X
    ∧ WLSModel.whiten1d (fun _ => 1) x = x
    ∧ (WLSModel.set_design pinv mw d).wdesign = WLSModel.whiten2d mw.weights d
    ∧ (WLSModel.set_rho pinv mw r).wdesign = WLSModel.whiten2d mw.weights mw.design
    ∧ (WLSModel.set_weights pinv mw w').wdesign = WLSModel.whiten2d w' mw.design := by
  refine ⟨fun i j => rfl, fun i => rfl, ?_, ?_, rfl, rfl, rfl⟩
  · funext i j
    simp [WLSModel.whiten2d]
  · funext i
    simp [WLSModel.whiten1d]

/-- Claim C8: For every fit result on which residuals are absent, requesting
the standard deviation fails with the invalid-state error
`"need residuals to estimate standard deviation"` rather than returning a
value, and requesting `t()` before any fit has populated residuals (so
neither `resid` nor the cached `_sd` is present) likewise fails with that
invalid-state error rather than returning a garbage value: `t` computes the
standard deviation lazily when `_sd` is absent, and that computation is
what raises. -/
theorem sd_and_t_require_residuals {n p : ℕ} (s : ResultsAttrs n p)
    (hresid : s.resid = none) (hsd : s._sd = none) :
    s.sd = .error "need residuals to estimate standard deviation"
    ∧ s.t = .error "need residuals to estimate standard deviation" := by
  have h1 : s.sd = .error "need residuals to estimate standard deviation" := by
    simp [ResultsAttrs.sd, hresid]
  refine ⟨h1, ?_⟩
  simp [ResultsAttrs.t, hsd, h1]

/-- Witness for C8: the freshly constructed results object (no attribute
assigned) satisfies both error equations. -/
theorem sd_and_t_require_residuals_witness :
    (ResultsAttrs.init 1 1).sd = .error "need residuals to estimate standard deviation"
    ∧ (ResultsAttrs.init 1 1).t = .error "need residuals to estimate standard deviation" :=
  sd_and_t_require_residuals (ResultsAttrs.init 1 1) rfl rfl

/-- Claim C9 (code bug in the source): `Rsq` is meant to return
`scale / variance(response)`, but the source reads the response from the
module-level global name `Y`, which the module never defines, so every call
raises `NameError`; the claimed value is returned only when a global `Y`
exists (the `some` branch), which requires the response to be stored where
`Rsq` can reach it. -/
theorem Rsq_reads_undefined_module_global {n p : ℕ}
    (r : RegressionModelResults ℚ n p) (Y : Fin n → ℚ) :
    r.Rsq none = .error "NameError: name Y is not defined"
    ∧ r.Rsq (some Y) = .ok (r.scale / np_var Y) :=
  ⟨rfl, rfl⟩

/-- Counterexample to claim C10 as stated: after fitting the model with
design `exD1` and then assigning design `exD2`, the previously returned fit
result's `normalized_cov_beta` does *not* reflect the model's new state
(the fit keeps the `[[1/2]]` matrix bound at fit time while the model now
holds `[[1]]`): in the source, `setup` rebinds
`self.normalized_cov_beta` to a freshly allocated array, so the reference
stored on the result still points at the old one. -/
theorem fit_cov_beta_stale_after_redesign :
    (((zeroModel 2 1).set_design exPinv exD1).fit ![1, 3]).normalized_cov_beta
      ≠ (((zeroModel 2 1).set_design exPinv exD1).set_design exPinv exD2).normalized_cov_beta := by
  have hne : exD2 ≠ exD1 := by
    intro h
    have h10 := congrFun (congrFun h 1) 0
    simp [exD1, exD2] at h10
  intro h
  have h00 := congrFun (congrFun h 0) 0
  simp only [OLSModel.fit, OLSModel.set_design, OLSModel.setup, zeroModel,
    if_pos rfl, if_neg hne, exPinv, Matrix.mul_apply, Fin.sum_univ_two,
    Fin.sum_univ_one, Matrix.transpose_apply, Matrix.of_apply] at h00
  norm_num [exD1, exD2, Matrix.cons_val_zero, Matrix.cons_val_one,
    Matrix.head_cons] at h00

/-- Claim C10 as amended: a fit result stores the model's `df_resid` bound
method, so calling `df_resid()` after a later design change reads the
model's *new* `_df_resid`; but `normalized_cov_beta` is the matrix the
model held at fit time — `setup` rebinds the model's field to a new matrix
instead of mutating the old one, so the result's copy keeps the fit-time
value and does not follow the model's new state. -/
theorem fit_df_resid_live_cov_beta_frozen
    {K : Type} [LinearOrderedField K] [FloorRing K] {n p : ℕ}
    (pinv : Matrix (Fin n) (Fin p) K → Matrix (Fin p) (Fin n) K)
    (m0 : OLSModel K n p) (d' : Matrix (Fin n) (Fin p) K) (Y : Fin n → K) :
    ((m0.fit Y).df_resid (m0.set_design pinv d') = (m0.set_design pinv d')._df_resid)
    ∧ ((m0.fit Y).normalized_cov_beta = m0.normalized_cov_beta) :=
  ⟨rfl, rfl⟩

/-- Rows of `C` inside the row space of `D` leave the rank of the stacked
matrix `concatenate([C, D])` unchanged. -/
theorem rank_fromRows_eq_of_rows_mem_span {q n p : ℕ}
    (C : Matrix (Fin q) (Fin p) ℚ) (D : Matrix (Fin n) (Fin p) ℚ)
    (h : ∀ i, C i ∈ Submodule.span ℚ (Set.range D)) :
    (Matrix.fromRows C D).rank = D.rank := by
  have hr : Set.range (Matrix.fromRows C D) = Set.range C ∪ Set.range D :=
    Set.Sum.elim_range C D
  have hspan : Submodule.span ℚ (Set.range (Matrix.fromRows C D))
      = Submodule.span ℚ (Set.range D) := by
    rw [hr, Submodule.span_union,
      sup_eq_right.mpr (Submodule.span_le.mpr (Set.range_subset_iff.mpr h))]
  rw [Matrix.rank_eq_finrank_span_row, Matrix.rank_eq_finrank_span_row (A := D), hspan]

/-- Claim C7: For every contrast matrix `C` and design matrix `D`,
`isestimable(C, D)` returns `True` exactly when the rank of the vertical
concatenation of `C` and `D` equals the rank of `D` (it is a total boolean
function of its inputs, so it never raises); in particular
`isestimable(D, D)` and `isestimable(0, D)` are always `True`. -/
theorem isestimable_rank_condition {q n p : ℕ}
    (C : Matrix (Fin q) (Fin p) ℚ) (D : Matrix (Fin n) (Fin p) ℚ) :
    (isestimable C D = true ↔ (Matrix.fromRows C D).rank = D.rank)
    ∧ isestimable D D = true
    ∧ isestimable (0 : Matrix (Fin q) (Fin p) ℚ) D = true := by
  refine ⟨?_, ?_, ?_⟩
  · simp [isestimable, utils.rank]
  · have heq := rank_fromRows_eq_of_rows_mem_span D D
      (fun i => Submodule.subset_span (Set.mem_range_self i))
    simp [isestimable, utils.rank, heq]
  · have heq := rank_fromRows_eq_of_rows_mem_span (0 : Matrix (Fin q) (Fin p) ℚ) D
      (fun i => by
        have hz : (0 : Matrix (Fin q) (Fin p) ℚ) i = (0 : Fin p → ℚ) := rfl
        rw [hz]
        exact Submodule.zero_mem _)
    simp [isestimable, utils.rank, heq]

/-- Claim C6: For every fit result, contrast matrix `M` and nonzero scalar
`c`, the F statistic computed for the rescaled contrast `c·M` equals the F
statistic computed for `M` (including agreement of the singular /
`LinAlgError` cases, since `det((c·M)·cov·(c·M)ᵀ) = (c²)^q · det(M·cov·Mᵀ)`
vanishes together with the unscaled determinant). -/
theorem Fcontrast_smul_invariant {n p q : ℕ} (r : RegressionModelResults ℚ n p)
    (M : Matrix (Fin q) (Fin p) ℚ) (c : ℚ) (hc : c ≠ 0) :
    r.Fcontrast (c • M) = r.Fcontrast M := by
  have hcc : c * c ≠ 0 := mul_ne_zero hc hc
  set S := M * (r.normalized_cov_beta * Mᵀ) with hS
  have hcov : r.cov_beta (c • M) (c • M) 1 = (c * c) • S := by
    simp only [RegressionModelResults.cov_beta, one_smul, Matrix.transpose_smul,
      Matrix.smul_mul, Matrix.mul_smul, smul_smul, one_mul, hS]
  have hcovM : r.cov_beta M M 1 = S := by
    simp only [RegressionModelResults.cov_beta, one_smul, hS]
  have hdet : ((c * c) • S).det = (c * c) ^ q * S.det := by
    rw [Matrix.det_smul, Fintype.card_fin]
  by_cases hdS : S.det = 0
  · have h1 : linalg_inv (r.cov_beta (c • M) (c • M) 1) = none := by
      rw [hcov, linalg_inv, if_pos (by rw [hdet, hdS, mul_zero])]
    have h2 : linalg_inv (r.cov_beta M M 1) = none := by
      rw [hcovM, linalg_inv, if_pos hdS]
    simp only [RegressionModelResults.Fcontrast, h1, h2, Option.map_none']
  · have hdet' : ((c * c) • S).det ≠ 0 := by
      rw [hdet]
      exact mul_ne_zero (pow_ne_zero _ hcc) hdS
    have hSinv : S * S⁻¹ = 1 := Matrix.mul_nonsing_inv S (Ne.isUnit hdS)
    have hinv : ((c * c) • S)⁻¹ = (c * c)⁻¹ • S⁻¹ := by
      apply Matrix.inv_eq_right_inv
      rw [Matrix.smul_mul, Matrix.mul_smul, hSinv, smul_smul,
        mul_inv_cancel₀ hcc, one_smul]
    have h1 : linalg_inv (r.cov_beta (c • M) (c • M) 1) = some ((c * c)⁻¹ • S⁻¹) := by
      rw [hcov]
      simp only [linalg_inv]
      rw [if_neg hdet', hinv]
    have h2 : linalg_inv (r.cov_beta M M 1) = some S⁻¹ := by
      rw [hcovM]
      simp only [linalg_inv]
      rw [if_neg hdS]
    simp only [RegressionModelResults.Fcontrast, h1, h2, Option.map_some',
      Matrix.smul_mulVec_assoc, Matrix.mulVec_smul, Pi.smul_apply, smul_eq_mul]
    congr 1
    refine congrArg (fun x => x * utils.recipr ((q : ℚ) * r.scale)) ?_
    refine Finset.sum_congr rfl fun i _ => ?_
    field_simp
    ring

/-- Witness for C6: on a concrete result and contrast, rescaling by `2`
leaves the F statistic unchanged. -/
theorem Fcontrast_smul_invariant_witness :
    (2 : ℚ) ≠ 0 ∧ exResults.Fcontrast ((2 : ℚ) • exM) = exResults.Fcontrast exM :=
  ⟨two_ne_zero, Fcontrast_smul_invariant exResults exM 2 two_ne_zero⟩

/-- If the candidate contrast entering the full-rank correction step is the
zero matrix, every entry of the step's output is zero, provided `fullrank`
returns a column subset of its input. -/
theorem cfc_step_zero {n p : ℕ}
    (rank : {k : ℕ} → Matrix (Fin n) (Fin k) ℚ → ℕ)
    (fullrank : {k : ℕ} → Matrix (Fin n) (Fin k) ℚ → (r : ℕ) × Matrix (Fin n) (Fin r) ℚ)
    (D : Matrix (Fin n) (Fin p) ℚ) (pinvD : Matrix (Fin p) (Fin n) ℚ)
    (hfr : ∀ {k : ℕ} (A : Matrix (Fin n) (Fin k) ℚ) (j : Fin (fullrank A).1),
      ∃ j', ∀ i, (fullrank A).2 i j = A i j')
    (q0 : ℕ) (s : (q : ℕ) × Matrix (Fin q) (Fin p) ℚ)
    (hs : cfc_step rank fullrank D pinvD ⟨q0, 0⟩ = s) (i : Fin s.1) (j : Fin p) :
    s.2 i j = 0 := by
  unfold cfc_step at hs
  split at hs
  next hne =>
    subst hs
    simp only [Matrix.transpose_apply, Matrix.mul_apply]
    refine Finset.sum_eq_zero fun k _ => ?_
    obtain ⟨j', hj'⟩ := hfr (D * ((⟨q0, 0⟩ : (q : ℕ) × Matrix (Fin q) (Fin p) ℚ)).2ᵀ) i
    rw [hj' k]
    simp
  next hne =>
    subst hs
    simp

/-- Claim C5: For every `n × p` design matrix `D` and matrix `T`, contrast
construction raises the shape-mismatch error exactly when `T` has neither
`n` rows nor `p` columns; whenever `T`'s shape matches it does not raise
(the result is an `ok` value for every `rank`/`fullrank` behaviour,
including rank-deficient input); and for an identically-zero `T` the
returned contrast is all-zero, provided the `fullrank` collaborator returns
a column subset of its input. -/
theorem contrastfromcols_shape_and_zero {a b n p : ℕ}
    (rank : {k : ℕ} → Matrix (Fin n) (Fin k) ℚ → ℕ)
    (fullrank : {k : ℕ} → Matrix (Fin n) (Fin k) ℚ → (r : ℕ) × Matrix (Fin n) (Fin r) ℚ)
    (T : Matrix (Fin a) (Fin b) ℚ) (D : Matrix (Fin n) (Fin p) ℚ)
    (pinvD : Matrix (Fin p) (Fin n) ℚ)
    (hfr : ∀ {k : ℕ} (A : Matrix (Fin n) (Fin k) ℚ) (j : Fin (fullrank A).1),
      ∃ j', ∀ i, (fullrank A).2 i j = A i j') :
    ((a ≠ n ∧ b ≠ p) →
      contrastfromcols rank fullrank T D pinvD = .error "shape of T and D mismatched")
    ∧ ((a = n ∨ b = p) →
      ∃ res, contrastfromcols rank fullrank T D pinvD = .ok res)
    ∧ (T = 0 → ∀ res, contrastfromcols rank fullrank T D pinvD = .ok res →
        ∀ i j, res.2 i j = 0) := by
  refine ⟨fun h => ?_, fun h => ?_, fun hT res hres i j => ?_⟩
  · unfold contrastfromcols
    rw [dif_pos h]
  · unfold contrastfromcols
    split
    next hsh => exact absurd hsh (by tauto)
    next hsh =>
      split
      next ha => exact ⟨_, rfl⟩
      next ha =>
        split
        next hb => exact ⟨_, rfl⟩
        next hb => exact absurd ⟨ha, hb⟩ hsh
  · subst hT
    unfold contrastfromcols at hres
    split at hres
    next hsh => exact Except.noConfusion hres
    next hsh =>
      split at hres
      next ha =>
        have h0 : (pinvD * (Matrix.reindex (finCongr ha) (Equiv.refl (Fin b))
            (0 : Matrix (Fin a) (Fin b) ℚ)))ᵀ = 0 := by
          ext i' j'
          simp
        rw [h0] at hres
        injection hres with hres'
        exact cfc_step_zero rank fullrank D pinvD hfr b res hres' i j
      next ha =>
        split at hres
        next hb =>
          have h0 : (Matrix.reindex (Equiv.refl (Fin a)) (finCongr hb)
              (0 : Matrix (Fin a) (Fin b) ℚ)) = 0 := by
            ext i' j'
            simp
          rw [h0] at hres
          injection hres with hres'
          exact cfc_step_zero rank fullrank D pinvD hfr a res hres' i j
        next hb => exact absurd ⟨ha, hb⟩ hsh

/-- Witness for C5: a `2 × 2` matrix against a `1 × 1` design raises the
shape-mismatch error, and a `1 × 1` zero matrix with matching shape yields
an `ok`, all-zero contrast. -/
theorem contrastfromcols_shape_and_zero_witness :
    (contrastfromcols zeroRank trivialFullrank (0 : Matrix (Fin 2) (Fin 2) ℚ)
        (1 : Matrix (Fin 1) (Fin 1) ℚ) 1 = .error "shape of T and D mismatched")
    ∧ (∃ res, contrastfromcols zeroRank trivialFullrank (0 : Matrix (Fin 1) (Fin 1) ℚ)
        (1 : Matrix (Fin 1) (Fin 1) ℚ) 1 = .ok res ∧ ∀ i j, res.2 i j = 0) := by
  constructor
  · exact (contrastfromcols_shape_and_zero zeroRank trivialFullrank _ _ _
      (fun A j => Fin.elim0 j)).1 ⟨by decide, by decide⟩
  · obtain ⟨res, hres⟩ := (contrastfromcols_shape_and_zero zeroRank trivialFullrank
      (0 : Matrix (Fin 1) (Fin 1) ℚ) (1 : Matrix (Fin 1) (Fin 1) ℚ) 1
      (fun A j => Fin.elim0 j)).2.1 (Or.inl rfl)
    exact ⟨res, hres, (contrastfromcols_shape_and_zero zeroRank trivialFullrank _ _ _
      (fun A j => Fin.elim0 j)).2.2 rfl res hres⟩

/-- The trace of an idempotent matrix over a field is a natural number
(the dimension of the associated projection's range). -/
theorem trace_natCast_of_idempotent {K : Type} [Field K] {p : ℕ}
    (P : Matrix (Fin p) (Fin p) K) (h : P * P = P) :
    ∃ k : ℕ, Matrix.trace P = (k : K) := by
  set f := P.mulVecLin with hf
  have hff : f ∘ₗ f = f := by
    rw [hf, ← Matrix.mulVecLin_mul, h]
  have hproj : LinearMap.IsProj (LinearMap.range f) f := by
    refine ⟨fun x => LinearMap.mem_range_self f x, ?_⟩
    rintro x ⟨y, rfl⟩
    exact LinearMap.congr_fun hff y
  refine ⟨Module.finrank K (LinearMap.range f), ?_⟩
  have htr := hproj.trace
  have hbridge : Matrix.trace P = LinearMap.trace K (Fin p → K) f := by
    rw [hf, ← Matrix.toLin'_apply',
      LinearMap.trace_eq_matrix_trace K (Pi.basisFun K (Fin p)),
      LinearMap.toMatrix_eq_toMatrix', LinearMap.toMatrix'_toLin']
  rw [hbridge, htr]

/-- `setup` establishes the model invariant whenever the backend `pinv`
routine satisfies the Penrose conditions. -/
theorem setup_satisfies_invariant {K : Type} [LinearOrderedField K] [FloorRing K]
    {n p : ℕ} (pinv : Matrix (Fin n) (Fin p) K → Matrix (Fin p) (Fin n) K)
    (hMP : ∀ A, IsMPInv A (pinv A)) (m : OLSModel K n p) :
    ModelInvariant (OLSModel.setup pinv m) := by
  obtain ⟨h1, h2, h3, h4⟩ := hMP m.wdesign
  refine ⟨hMP m.wdesign, rfl, ?_⟩
  show round ((n : K) - Matrix.trace (pinv m.wdesign * m.wdesign))
    = (n : ℤ) - round (Matrix.trace (pinv m.wdesign * m.wdesign))
  have hidem : (pinv m.wdesign * m.wdesign) * (pinv m.wdesign * m.wdesign)
      = pinv m.wdesign * m.wdesign := by
    rw [Matrix.mul_assoc,
      ← Matrix.mul_assoc m.wdesign (pinv m.wdesign) m.wdesign, h1]
  obtain ⟨k, hk⟩ := trace_natCast_of_idempotent _ hidem
  rw [hk]
  have hcast : ((n : K) - (k : K)) = (((n : ℤ) - (k : ℤ) : ℤ) : K) := by
    push_cast
    ring
  rw [hcast, round_intCast, round_natCast]

/-- Claim C2: After every change to the whitened design — assigning the
design matrix of an OLS model, the design or `ρ` of an AR model, or the
design, `ρ` or weights of a WLS model — the model's stored quantities
satisfy: `calc_beta` is the Moore-Penrose pseudo-inverse of the whitened
design, the normalized covariance of coefficients equals
`calc_beta · calc_betaᵀ`, and the residual degrees of freedom equal
`n − round(trace(calc_beta · whitened design))`; the trait hooks run the
recomputation during the assignment itself, so the invariant already holds
before any subsequent fit or contrast query.  The backend `pinv` routines
are assumed to satisfy the Penrose conditions. -/
theorem setup_invariant_after_changes
    {K : Type} [LinearOrderedField K] [FloorRing K] {n p n' p' : ℕ}
    (pinv : Matrix (Fin n) (Fin p) K → Matrix (Fin p) (Fin n) K)
    (pinvR : Matrix (Fin (n' + 1)) (Fin p') ℝ → Matrix (Fin p') (Fin (n' + 1)) ℝ)
    (hMP : ∀ A, IsMPInv A (pinv A)) (hMPR : ∀ A, IsMPInv A (pinvR A))
    (m : OLSModel K n p) (d : Matrix (Fin n) (Fin p) K)
    (ma : ARModel n' p') (da : Matrix (Fin (n' + 1)) (Fin p') ℝ) (r : ℝ)
    (mw : WLSModel n' p') (dw : Matrix (Fin (n' + 1)) (Fin p') ℝ) (r' : ℝ)
    (w : Fin (n' + 1) → ℝ) :
    ModelInvariant (m.set_design pinv d)
    ∧ ModelInvariant (ARModel.set_design pinvR ma da).toOLSModel
    ∧ ModelInvariant (ARModel.set_rho pinvR ma r).toOLSModel
    ∧ ModelInvariant (WLSModel.set_design pinvR mw dw).toOLSModel
    ∧ ModelInvariant (WLSModel.set_rho pinvR mw r').toOLSModel
    ∧ ModelInvariant (WLSModel.set_weights pinvR mw w).toOLSModel :=
  ⟨setup_satisfies_invariant pinv hMP _,
   setup_satisfies_invariant pinvR hMPR _,
   setup_satisfies_invariant pinvR hMPR _,
   setup_satisfies_invariant pinvR hMPR _,
   setup_satisfies_invariant pinvR hMPR _,
   setup_satisfies_invariant pinvR hMPR _⟩

/-- On `1 × 1` matrices, the zero-guarded entrywise reciprocal is a
Moore-Penrose pseudo-inverse. -/
theorem isMPInv_one_dim {K : Type} [Field K] [DecidableEq K]
    (A G : Matrix (Fin 1) (Fin 1) K)
    (hG : G = Matrix.of fun _ _ => if A 0 0 = 0 then 0 else (A 0 0)⁻¹) :
    IsMPInv A G := by
  subst hG
  refine ⟨?_, ?_, ?_, ?_⟩ <;>
  · ext i j
    fin_cases i
    fin_cases j
    by_cases h : A 0 0 = 0 <;>
      · simp [Matrix.mul_apply, Fin.sum_univ_one, h]
        try field_simp

/-- Witness for C2: the invariant holds after concrete design / rho /
weights assignments on concrete `1 × 1` models, with the `1 × 1`
pseudo-inverse routines. -/
theorem setup_invariant_after_changes_witness :
    ModelInvariant ((zeroModel 1 1).set_design pinvQOne 1)
    ∧ ModelInvariant (ARModel.set_design pinvOne zeroAR 0).toOLSModel
    ∧ ModelInvariant (ARModel.set_rho pinvOne zeroAR 0).toOLSModel
    ∧ ModelInvariant (WLSModel.set_design pinvOne zeroWLS 0).toOLSModel
    ∧ ModelInvariant (WLSModel.set_rho pinvOne zeroWLS 0).toOLSModel
    ∧ ModelInvariant (WLSModel.set_weights pinvOne zeroWLS (fun _ => 1)).toOLSModel :=
  setup_invariant_after_changes pinvQOne pinvOne
    (fun A => isMPInv_one_dim A _ rfl) (fun A => isMPInv_one_dim A _ rfl)
    (zeroModel 1 1) 1 zeroAR 0 0 zeroWLS 0 0 (fun _ => 1)

end Regression
